import Mathlib

/-!
Shallow embedding of the pitch and harmonic analysis engine of this
repository (`src/fft_engine.py`, class `FFTAnalyzer`) together with proofs
about its specification.  The detector and locator work on float64 numbers,
all of which are rational, so they are embedded over `ℚ`; the note mapper
(log2) and the spectral estimator (cosine window, complex exponential) are
embedded over `ℝ` and `ℂ`.  Calls that can raise in numpy (boolean masks of
the wrong length, argmin of an empty array, FFT of zero points, indexing out
of range) are modelled by `Option`, with `none` standing for a raised
exception.
-/

namespace FFTEngine

/-- Epsilon guard `1e-10` used by the parabolic interpolation
(`fft_engine.py`, line 107). -/
def EPS : ℚ := 1 / 10000000000

/-- `np.clip x lo hi`: clamp `x` into the closed interval from `lo` to `hi`. -/
def np_clip (x lo hi : ℚ) : ℚ :=
  if x < lo then lo else if hi < x then hi else x

/-- `np.argmax`: index of the first occurrence of the maximum value. -/
def np_argmax : List ℚ → ℕ
  | [] => 0
  | [_] => 0
  | x :: y :: l =>
    if x < (y :: l).getD (np_argmax (y :: l)) 0 then np_argmax (y :: l) + 1 else 0

/-- `np.argmin`: index of the first occurrence of the minimum value. -/
def np_argmin : List ℚ → ℕ
  | [] => 0
  | [_] => 0
  | x :: y :: l =>
    if (y :: l).getD (np_argmin (y :: l)) 0 < x then np_argmin (y :: l) + 1 else 0

/-- Boolean-mask indexing `a[mask]` of numpy (elements of `l` at the
positions where `mask` holds). -/
def boolMask (mask : List Bool) (l : List ℚ) : List ℚ :=
  (mask.zip l).filterMap (fun bx => if bx.1 then some bx.2 else none)

/-- The mask predicate `(frequencies >= min_freq) & (frequencies <= max_freq)`
of `find_fundamental_frequency` (`fft_engine.py`, line 85). -/
def bandMask (min_freq max_freq f : ℚ) : Bool :=
  decide (min_freq ≤ f ∧ f ≤ max_freq)

/-- `FFTAnalyzer.find_fundamental_frequency` (`fft_engine.py`, lines 85-120).
`none` models the `IndexError` numpy raises when the boolean mask built from
`frequencies` is applied to a `magnitudes` array of a different length; every
other path is total and returns `some`. -/
def find_fundamental_frequency (frequencies magnitudes : List ℚ)
    (min_freq : ℚ := 50) (max_freq : ℚ := 2000) : Option ℚ :=
  if frequencies.length ≠ magnitudes.length then none
  else
    let mask := frequencies.map (bandMask min_freq max_freq)
    let valid_freqs := boolMask mask frequencies
    let valid_mags := boolMask mask magnitudes
    if valid_mags.length = 0 then some 0
    else
      let peak_idx := np_argmax valid_mags
      let fundamental := valid_freqs.getD peak_idx 0
      if 0 < peak_idx ∧ peak_idx < valid_mags.length - 1 then
        let alpha := valid_mags.getD (peak_idx - 1) 0
        let beta := valid_mags.getD peak_idx 0
        let gamma := valid_mags.getD (peak_idx + 1) 0
        let denominator := alpha - 2 * beta + gamma
        if EPS < |denominator| then
          let delta := np_clip (0.5 * (alpha - gamma) / denominator) (-0.5) 0.5
          if 1 < frequencies.length then
            some (fundamental + delta * (frequencies.getD 1 0 - frequencies.getD 0 0))
          else some fundamental
        else some fundamental
      else some fundamental

/-- One iteration of the loop of `FFTAnalyzer.find_harmonics`
(`fft_engine.py`, lines 143-150): locate the bin closest to
`fundamental * i` and emit `(i, frequency, magnitude)`.  `none` models the
`ValueError` of `np.argmin` on an empty array and the `IndexError` of
`magnitudes[idx]` when the arrays have different lengths. -/
def harmonicEntry (frequencies magnitudes : List ℚ) (fundamental : ℚ)
    (i : ℕ) : Option (ℕ × ℚ × ℚ) :=
  if frequencies.isEmpty then none
  else
    let expected_freq := fundamental * i
    let idx := np_argmin (frequencies.map (fun f => |f - expected_freq|))
    match frequencies.get? idx, magnitudes.get? idx with
    | some actual_freq, some magnitude => some (i, actual_freq, magnitude)
    | _, _ => none

/-- Sequencing of a fallible loop body: the first exception aborts the
whole call. -/
def optionMap {α β : Type} (g : α → Option β) : List α → Option (List β)
  | [] => some []
  | a :: l =>
    match g a, optionMap g l with
    | some b, some bs => some (b :: bs)
    | _, _ => none

/-- `FFTAnalyzer.find_harmonics` (`fft_engine.py`, lines 122-152):
the loop `for i in range(1, num_harmonics + 1)` collecting one entry per
harmonic number. -/
def find_harmonics (frequencies magnitudes : List ℚ) (fundamental : ℚ)
    (num_harmonics : ℕ := 5) : Option (List (ℕ × ℚ × ℚ)) :=
  optionMap (harmonicEntry frequencies magnitudes fundamental)
    ((List.range num_harmonics).map (fun i => i + 1))

/-- The pitch-class table of `FFTAnalyzer.frequency_to_note`
(`fft_engine.py`, line 174). -/
def notes : List String :=
  ["C", "C#", "D", "D#", "E", "F"] ++
    ["F#", "G", "G#", "A", "A#", "B"]

/-- `FFTAnalyzer.frequency_to_note` (`fft_engine.py`, lines 154-185).
Python's `//` on integers is floor division (`Int.fdiv`) and `%` on a
positive modulus is the non-negative remainder (`Int.emod`, Lean's `%`). -/
noncomputable def frequency_to_note (frequency : ℝ) : String :=
  if frequency ≤ 0 then "N/A"
  else
    let half_steps : ℝ := 12 * Real.logb 2 (frequency / 440)
    let h : ℤ := round half_steps
    let octave : ℤ := 4 + Int.fdiv h 12
    let note_idx : ℤ := (h + 9) % 12
    if note_idx < 0 then
      notes.getD (note_idx + 12).toNat "" ++ toString (octave - 1)
    else
      notes.getD note_idx.toNat "" ++ toString octave

/-- The same mapper with the `note_idx < 0` corrective branch removed,
named after the spec's description of the algorithm (round, floor-divide
for the octave, non-negative modulus for the pitch class). -/
noncomputable def frequency_to_note_spec (frequency : ℝ) : String :=
  if frequency ≤ 0 then "N/A"
  else
    let h : ℤ := round (12 * Real.logb 2 (frequency / 440))
    notes.getD ((h + 9) % 12).toNat "" ++ toString (4 + Int.fdiv h 12)

/-- `np.hanning M`: the raised-cosine window, `[1]` for a single point and
empty for `M = 0`. -/
noncomputable def np_hanning (M : ℕ) : List ℝ :=
  if M = 1 then [1]
  else (List.range M).map (fun (n : ℕ) => 0.5 - 0.5 * Real.cos (2 * Real.pi * (n : ℝ) / ((M : ℝ) - 1)))

/-- `np.fft.rfftfreq n (1 / sample_rate)`: the `n / 2 + 1` bin frequencies
`i * sample_rate / n`. -/
def np_rfftfreq (n : ℕ) (sample_rate : ℚ) : List ℚ :=
  (List.range (n / 2 + 1)).map (fun (i : ℕ) => (i : ℚ) * sample_rate / (n : ℚ))

/-- `np.fft.rfft`: the discrete Fourier transform of a real signal,
restricted to the `n / 2 + 1` non-negative-frequency bins. -/
noncomputable def np_rfft (x : List ℝ) : List ℂ :=
  (List.range (x.length / 2 + 1)).map (fun (k : ℕ) =>
    ∑ j ∈ Finset.range x.length,
      (x.getD j 0 : ℂ) *
        Complex.exp (-2 * (Real.pi : ℂ) * Complex.I * (j : ℂ) * (k : ℂ) / (x.length : ℂ)))

/-- `FFTAnalyzer.compute_fft` (`fft_engine.py`, lines 22-45): Hann window,
real FFT, magnitudes, bin frequencies.  `none` models the `ValueError` that
`np.fft.rfft` raises on zero data points. -/
noncomputable def compute_fft (sample_rate : ℚ) (audio_data : List ℝ) :
    Option (List ℚ × List ℝ) :=
  if audio_data.length = 0 then none
  else
    let windowed_data := List.zipWith (fun a w => a * w) audio_data (np_hanning audio_data.length)
    let fft_result := np_rfft windowed_data
    let magnitudes := fft_result.map Complex.abs
    let frequencies := np_rfftfreq audio_data.length sample_rate
    some (frequencies, magnitudes)

/-- The qualifying bins of the detector: the (frequency, magnitude) pairs of
the spectrum whose frequency lies in the band. -/
def qualifying (frequencies magnitudes : List ℚ) (min_freq max_freq : ℚ) :
    List (ℚ × ℚ) :=
  (frequencies.zip magnitudes).filter (fun fm => bandMask min_freq max_freq fm.1)

/-- Position `k` holds the maximum of `l` and is the first position to do
so. -/
def isFirstMax (l : List ℚ) (k : ℕ) : Prop :=
  k < l.length ∧ (∀ j < l.length, l.getD j 0 ≤ l.getD k 0) ∧
    ∀ j < k, l.getD j 0 < l.getD k 0

/-- Bin `j` minimizes the distance of its frequency to `target`, ties broken
by the lowest index. -/
def isNearestBin (freqs : List ℚ) (target : ℚ) (j : ℕ) : Prop :=
  j < freqs.length ∧
    (∀ k < freqs.length, |freqs.getD j 0 - target| ≤ |freqs.getD k 0 - target|) ∧
    ∀ k < j, |freqs.getD j 0 - target| < |freqs.getD k 0 - target|

/-- The result the spec prescribes for the detector once the peak position
`k` in the qualifying set is known: parabolic refinement by a clamped offset
at interior peaks with a usable denominator, the raw peak frequency
otherwise. -/
def fundAt (freqs : List ℚ) (q : List (ℚ × ℚ)) (k : ℕ) : ℚ :=
  let raw := (q.getD k (0, 0)).1
  if 0 < k ∧ k + 1 < q.length then
    let alpha := (q.getD (k - 1) (0, 0)).2
    let beta := (q.getD k (0, 0)).2
    let gamma := (q.getD (k + 1) (0, 0)).2
    let denom := alpha - 2 * beta + gamma
    if EPS < |denom| then
      raw + max (-0.5) (min (0.5 * (alpha - gamma) / denom) 0.5) *
        (freqs.getD 1 0 - freqs.getD 0 0)
    else raw
  else raw

/-! Basic helper lemmas about list access. -/

theorem getD_eq_get {α : Type} :
    ∀ (l : List α) (n : ℕ) (d : α) (h : n < l.length), l.getD n d = l.get ⟨n, h⟩
  | _ :: _, 0, _, _ => rfl
  | _ :: t, n + 1, d, h => getD_eq_get t n d (Nat.lt_of_succ_lt_succ h)

theorem getD_mem {α : Type} (l : List α) (n : ℕ) (d : α) (h : n < l.length) :
    l.getD n d ∈ l := by
  rw [getD_eq_get l n d h]
  exact List.get_mem l n h

theorem getD_map_lt {α β : Type} (g : α → β) :
    ∀ (l : List α) (k : ℕ), k < l.length → ∀ (d : α) (d' : β),
      (l.map g).getD k d' = g (l.getD k d)
  | _ :: _, 0, _, _, _ => rfl
  | _ :: t, k + 1, h, d, d' =>
    getD_map_lt g t k (Nat.lt_of_succ_lt_succ h) d d'

theorem getD_range_map {β : Type} (g : ℕ → β) (n i : ℕ) (hi : i < n) (d : β) :
    ((List.range n).map g).getD i d = g i := by
  rw [getD_map_lt g (List.range n) i (by simpa using hi) 0 d,
    getD_eq_get _ i 0 (by simpa using hi)]
  simp

theorem mem_getD {α : Type} (l : List α) (x : α) (d : α) (hx : x ∈ l) :
    ∃ i, i < l.length ∧ x = l.getD i d := by
  obtain ⟨⟨i, hi⟩, rfl⟩ := List.mem_iff_get.mp hx
  exact ⟨i, hi, (getD_eq_get l i d hi).symm⟩

/-! Properties of `np_argmax` and `np_argmin`: they return the first
position of the maximum, respectively the minimum. -/

theorem np_argmax_spec : ∀ (l : List ℚ), l ≠ [] → isFirstMax l (np_argmax l)
  | [], h => absurd rfl h
  | [x], _ => by
    refine ⟨by simp [np_argmax], ?_, ?_⟩
    · intro j hj
      have hj0 : j = 0 := by simpa using hj
      subst hj0
      exact le_refl _
    · intro j hj
      simp [np_argmax] at hj
  | x :: y :: l, _ => by
    obtain ⟨ih1, ih2, ih3⟩ := np_argmax_spec (y :: l) (by simp)
    by_cases hx : x < (y :: l).getD (np_argmax (y :: l)) 0
    · have hres : np_argmax (x :: y :: l) = np_argmax (y :: l) + 1 := by
        rw [np_argmax, if_pos hx]
      refine ⟨?_, ?_, ?_⟩ <;> rw [hres]
      · simpa using Nat.succ_lt_succ ih1
      · intro j hj
        cases j with
        | zero => simpa using le_of_lt hx
        | succ j =>
          rw [List.getD_cons_succ, List.getD_cons_succ]
          exact ih2 j (by simpa using hj)
      · intro j hj
        cases j with
        | zero => simpa using hx
        | succ j =>
          rw [List.getD_cons_succ, List.getD_cons_succ]
          exact ih3 j (Nat.lt_of_succ_lt_succ hj)
    · have hres : np_argmax (x :: y :: l) = 0 := by
        rw [np_argmax, if_neg hx]
      push_neg at hx
      refine ⟨?_, ?_, ?_⟩ <;> rw [hres]
      · simp
      · intro j hj
        cases j with
        | zero => exact le_refl _
        | succ j =>
          rw [List.getD_cons_succ, List.getD_cons_zero]
          exact le_trans (ih2 j (by simpa using hj)) hx
      · intro j hj
        simp at hj
    termination_by l => l.length

theorem np_argmin_spec : ∀ (l : List ℚ), l ≠ [] →
    np_argmin l < l.length ∧
    (∀ j < l.length, l.getD (np_argmin l) 0 ≤ l.getD j 0) ∧
    ∀ j < np_argmin l, l.getD (np_argmin l) 0 < l.getD j 0
  | [], h => absurd rfl h
  | [x], _ => by
    refine ⟨by simp [np_argmin], ?_, ?_⟩
    · intro j hj
      have hj0 : j = 0 := by simpa using hj
      subst hj0
      exact le_refl _
    · intro j hj
      simp [np_argmin] at hj
  | x :: y :: l, _ => by
    obtain ⟨ih1, ih2, ih3⟩ := np_argmin_spec (y :: l) (by simp)
    by_cases hx : (y :: l).getD (np_argmin (y :: l)) 0 < x
    · have hres : np_argmin (x :: y :: l) = np_argmin (y :: l) + 1 := by
        rw [np_argmin, if_pos hx]
      refine ⟨?_, ?_, ?_⟩ <;> rw [hres]
      · simpa using Nat.succ_lt_succ ih1
      · intro j hj
        cases j with
        | zero => simpa using le_of_lt hx
        | succ j =>
          rw [List.getD_cons_succ, List.getD_cons_succ]
          exact ih2 j (by simpa using hj)
      · intro j hj
        cases j with
        | zero => simpa using hx
        | succ j =>
          rw [List.getD_cons_succ, List.getD_cons_succ]
          exact ih3 j (Nat.lt_of_succ_lt_succ hj)
    · have hres : np_argmin (x :: y :: l) = 0 := by
        rw [np_argmin, if_neg hx]
      push_neg at hx
      refine ⟨?_, ?_, ?_⟩ <;> rw [hres]
      · simp
      · intro j hj
        cases j with
        | zero => exact le_refl _
        | succ j =>
          rw [List.getD_cons_succ, List.getD_cons_zero]
          exact le_trans hx (ih2 j (by simpa using hj))
      · intro j hj
        simp at hj
    termination_by l => l.length

/-! Properties of `np_clip` and of the boolean mask. -/

theorem np_clip_eq (x lo hi : ℚ) (h : lo ≤ hi) : np_clip x lo hi = max lo (min x hi) := by
  rw [np_clip]
  split_ifs with h1 h2
  · rw [min_eq_left (le_trans (le_of_lt h1) h), max_eq_left (le_of_lt h1)]
  · rw [min_eq_right (le_of_lt h2), max_eq_right h]
  · push_neg at h1 h2
    rw [min_eq_left h2, max_eq_right h1]

theorem clamp_bounds (x lo hi : ℚ) (h : lo ≤ hi) :
    lo ≤ max lo (min x hi) ∧ max lo (min x hi) ≤ hi :=
  ⟨le_max_left _ _, max_le h (min_le_right _ _)⟩

theorem boolMask_cons (c : Bool) (mask : List Bool) (x : ℚ) (l : List ℚ) :
    boolMask (c :: mask) (x :: l) =
      if c then x :: boolMask mask l else boolMask mask l := by
  by_cases h : c <;> simp [boolMask, List.filterMap_cons, h]

theorem boolMask_map_self (p : ℚ → Bool) :
    ∀ l : List ℚ, boolMask (l.map p) l = l.filter p
  | [] => rfl
  | x :: l => by
    rw [List.map_cons, boolMask_cons, boolMask_map_self p l, List.filter_cons]

theorem boolMask_snd (p : ℚ → Bool) :
    ∀ (l m : List ℚ), l.length = m.length →
      boolMask (l.map p) m = ((l.zip m).filter (fun ab => p ab.1)).map Prod.snd
  | [], [], _ => rfl
  | [], _ :: _, h => by simp at h
  | _ :: _, [], h => by simp at h
  | a :: l, b :: m, h => by
    rw [List.map_cons, boolMask_cons, boolMask_snd p l m (by simpa using h),
      List.zip_cons_cons, List.filter_cons]
    by_cases hp : p a <;> simp [hp]

theorem zip_filter_fst (p : ℚ → Bool) :
    ∀ (l m : List ℚ), l.length = m.length →
      ((l.zip m).filter (fun ab => p ab.1)).map Prod.fst = l.filter p
  | [], [], _ => rfl
  | [], _ :: _, h => by simp at h
  | _ :: _, [], h => by simp at h
  | a :: l, b :: m, h => by
    rw [List.zip_cons_cons, List.filter_cons, List.filter_cons]
    by_cases hp : p a <;> simp [hp, zip_filter_fst p l m (by simpa using h)]

/-! Properties of the qualifying set. -/

theorem qualifying_length_le (freqs mags : List ℚ) (minf maxf : ℚ) :
    (qualifying freqs mags minf maxf).length ≤ freqs.length :=
  le_trans (List.length_filter_le _ _)
    (by rw [List.length_zip]; exact Nat.min_le_left _ _)

theorem qualifying_band (freqs mags : List ℚ) (minf maxf : ℚ) (k : ℕ)
    (hk : k < (qualifying freqs mags minf maxf).length) :
    minf ≤ ((qualifying freqs mags minf maxf).getD k (0, 0)).1 ∧
      ((qualifying freqs mags minf maxf).getD k (0, 0)).1 ≤ maxf := by
  have hmem := getD_mem (qualifying freqs mags minf maxf) k (0, 0) hk
  simp only [qualifying] at hmem
  have hpair := (List.mem_filter.mp hmem).2
  simp only [bandMask, decide_eq_true_eq] at hpair
  simp only [qualifying]
  exact hpair

theorem qualifying_fst_eq (freqs mags : List ℚ) (minf maxf : ℚ)
    (hlen : freqs.length = mags.length) :
    (qualifying freqs mags minf maxf).map Prod.fst =
      freqs.filter (bandMask minf maxf) := by
  simp only [qualifying]
  exact zip_filter_fst (bandMask minf maxf) freqs mags hlen

theorem qualifying_fst_mem (freqs mags : List ℚ) (minf maxf : ℚ)
    (hlen : freqs.length = mags.length) (k : ℕ)
    (hk : k < (qualifying freqs mags minf maxf).length) :
    ((qualifying freqs mags minf maxf).getD k (0, 0)).1 ∈ freqs := by
  have hmem := getD_mem _ k (0, 0) hk
  have hmap : ((qualifying freqs mags minf maxf).getD k (0, 0)).1 ∈
      (qualifying freqs mags minf maxf).map Prod.fst :=
    List.mem_map_of_mem _ hmem
  rw [qualifying_fst_eq freqs mags minf maxf hlen] at hmap
  exact List.mem_of_mem_filter hmap

/-! The central description of the detector: on a spectrum with a non-empty
qualifying set it picks the first position of the maximal magnitude among the
qualifying bins and returns the (possibly parabolic-refined) frequency given
by `fundAt`. -/

theorem find_fund_spec (freqs mags : List ℚ) (minf maxf : ℚ)
    (hlen : freqs.length = mags.length)
    (hq : qualifying freqs mags minf maxf ≠ []) :
    isFirstMax ((qualifying freqs mags minf maxf).map Prod.snd)
      (np_argmax ((qualifying freqs mags minf maxf).map Prod.snd)) ∧
    find_fundamental_frequency freqs mags minf maxf =
      some (fundAt freqs (qualifying freqs mags minf maxf)
        (np_argmax ((qualifying freqs mags minf maxf).map Prod.snd))) := by
  have hvm : boolMask (freqs.map (bandMask minf maxf)) mags =
      (qualifying freqs mags minf maxf).map Prod.snd := by
    rw [boolMask_snd (bandMask minf maxf) freqs mags hlen]
    rfl
  have hvf : boolMask (freqs.map (bandMask minf maxf)) freqs =
      (qualifying freqs mags minf maxf).map Prod.fst := by
    rw [boolMask_map_self, qualifying_fst_eq freqs mags minf maxf hlen]
  set q := qualifying freqs mags minf maxf with hqdef
  set k := np_argmax (q.map Prod.snd) with hkdef
  have hqne : q.map Prod.snd ≠ [] := by simpa using hq
  have hfm := np_argmax_spec (q.map Prod.snd) hqne
  refine ⟨hfm, ?_⟩
  obtain ⟨hk1, hk2, hk3⟩ := hfm
  have hkq : k < q.length := by simpa using hk1
  have h0q : 0 < q.length := List.length_pos.mpr hq
  simp only [find_fundamental_frequency, hvm, hvf]
  rw [if_neg (show ¬freqs.length ≠ mags.length from fun h => h hlen)]
  rw [if_neg (show ¬(q.map Prod.snd).length = 0 from by simpa using hq)]
  rw [← hkdef]
  have hfstk : (List.map Prod.fst q).getD k 0 = (q.getD k (0, 0)).1 :=
    getD_map_lt Prod.fst q k hkq (0, 0) 0
  have hsndk : (List.map Prod.snd q).getD k 0 = (q.getD k (0, 0)).2 :=
    getD_map_lt Prod.snd q k hkq (0, 0) 0
  have hiff : (0 < k ∧ k < (List.map Prod.snd q).length - 1) ↔
      (0 < k ∧ k + 1 < q.length) := by
    rw [List.length_map]
    omega
  by_cases hin : 0 < k ∧ k + 1 < q.length
  · obtain ⟨hin0, hinp⟩ := hin
    have hkm : k - 1 < q.length := by omega
    have hsndm : (List.map Prod.snd q).getD (k - 1) 0 = (q.getD (k - 1) (0, 0)).2 :=
      getD_map_lt Prod.snd q (k - 1) hkm (0, 0) 0
    have hsndp : (List.map Prod.snd q).getD (k + 1) 0 = (q.getD (k + 1) (0, 0)).2 :=
      getD_map_lt Prod.snd q (k + 1) hinp (0, 0) 0
    rw [if_pos (hiff.mpr ⟨hin0, hinp⟩), hsndm, hsndk, hsndp, hfstk]
    have hflen : 1 < freqs.length := by
      have hle := qualifying_length_le freqs mags minf maxf
      rw [← hqdef] at hle
      omega
    simp only [fundAt]
    rw [if_pos (show 0 < k ∧ k + 1 < q.length from ⟨hin0, hinp⟩)]
    by_cases heps : EPS <
        |(q.getD (k - 1) (0, 0)).2 - 2 * (q.getD k (0, 0)).2 + (q.getD (k + 1) (0, 0)).2|
    · rw [if_pos heps, if_pos hflen, if_pos heps,
        np_clip_eq _ _ _ (by norm_num : (-0.5 : ℚ) ≤ 0.5)]
    · rw [if_neg heps, if_neg heps]
  · rw [if_neg (fun h => hin (hiff.mp h))]
    simp only [fundAt]
    rw [if_neg hin, hfstk]

theorem find_fund_of_empty (freqs mags : List ℚ) (minf maxf : ℚ)
    (hlen : freqs.length = mags.length)
    (hq : qualifying freqs mags minf maxf = []) :
    find_fundamental_frequency freqs mags minf maxf = some 0 := by
  have hvm : boolMask (freqs.map (bandMask minf maxf)) mags =
      (qualifying freqs mags minf maxf).map Prod.snd := by
    rw [boolMask_snd (bandMask minf maxf) freqs mags hlen]
    rfl
  simp only [find_fundamental_frequency, hvm, hq]
  rw [if_neg (show ¬freqs.length ≠ mags.length from fun h => h hlen)]
  simp

theorem getD_eq_getElem' {α : Type} (l : List α) (i : ℕ) (d : α)
    (hi : i < l.length) : l.getD i d = l[i] := by
  rw [getD_eq_get l i d hi, List.get_eq_getElem]

/-! A strictly increasing, uniformly spaced frequency list is an arithmetic
progression with positive common difference. -/

theorem arith_getD (freqs : List ℚ)
    (huni : ∀ i < freqs.length - 1,
      freqs.getD (i + 1) 0 - freqs.getD i 0 = freqs.getD 1 0 - freqs.getD 0 0) :
    ∀ i < freqs.length,
      freqs.getD i 0 = freqs.getD 0 0 + i * (freqs.getD 1 0 - freqs.getD 0 0) := by
  intro i
  induction i with
  | zero => intro _; simp
  | succ n ih =>
    intro hn
    have h1 : n < freqs.length := by omega
    have h2 : n < freqs.length - 1 := by omega
    have hu := huni n h2
    have hn' := ih h1
    push_cast
    linarith

theorem freqs_pairwise (freqs : List ℚ)
    (hinc : ∀ i < freqs.length - 1, freqs.getD i 0 < freqs.getD (i + 1) 0)
    (huni : ∀ i < freqs.length - 1,
      freqs.getD (i + 1) 0 - freqs.getD i 0 = freqs.getD 1 0 - freqs.getD 0 0) :
    List.Pairwise (· < ·) freqs := by
  rw [List.pairwise_iff_getElem]
  intro i j hi hj hij
  have hd : 0 < freqs.getD 1 0 - freqs.getD 0 0 := by
    have h0 := hinc 0 (by omega)
    linarith
  have ha := arith_getD freqs huni i hi
  have hb := arith_getD freqs huni j hj
  rw [getD_eq_getElem' freqs i 0 hi] at ha
  rw [getD_eq_getElem' freqs j 0 hj] at hb
  have hij' : (i : ℚ) < (j : ℚ) := by exact_mod_cast hij
  nlinarith [mul_lt_mul_of_pos_right hij' hd]

/-! In the interior-peak case the refined frequency stays inside the band:
the two qualifying neighbours bracket the raw peak at distance at least one
bin width, and the clamped offset moves it by at most half a bin width. -/

set_option maxHeartbeats 1600000 in
theorem fundAt_band (freqs mags : List ℚ) (minf maxf : ℚ)
    (hlen : freqs.length = mags.length)
    (hinc : ∀ i < freqs.length - 1, freqs.getD i 0 < freqs.getD (i + 1) 0)
    (huni : ∀ i < freqs.length - 1,
      freqs.getD (i + 1) 0 - freqs.getD i 0 = freqs.getD 1 0 - freqs.getD 0 0)
    (k : ℕ) (hk : k < (qualifying freqs mags minf maxf).length) :
    minf ≤ fundAt freqs (qualifying freqs mags minf maxf) k ∧
      fundAt freqs (qualifying freqs mags minf maxf) k ≤ maxf := by
  set q := qualifying freqs mags minf maxf with hqdef
  have hbk := qualifying_band freqs mags minf maxf k hk
  simp only [fundAt]
  by_cases hin : 0 < k ∧ k + 1 < q.length
  · rw [if_pos hin]
    obtain ⟨hin0, hinp⟩ := hin
    have hbm := qualifying_band freqs mags minf maxf (k - 1) (by rw [← hqdef]; omega)
    have hbp := qualifying_band freqs mags minf maxf (k + 1) (by rw [← hqdef]; omega)
    have hmemk := qualifying_fst_mem freqs mags minf maxf hlen k (by rw [← hqdef]; omega)
    have hmemm := qualifying_fst_mem freqs mags minf maxf hlen (k - 1) (by rw [← hqdef]; omega)
    have hmemp := qualifying_fst_mem freqs mags minf maxf hlen (k + 1) (by rw [← hqdef]; omega)
    have hflen : 2 ≤ freqs.length := by
      have hle := qualifying_length_le freqs mags minf maxf
      rw [← hqdef] at hle
      omega
    have hd : 0 < freqs.getD 1 0 - freqs.getD 0 0 := by
      have h0 := hinc 0 (by omega)
      linarith
    have hpw : List.Pairwise (· < ·) (q.map Prod.fst) := by
      rw [hqdef, qualifying_fst_eq freqs mags minf maxf hlen]
      exact (freqs_pairwise freqs hinc huni).filter _
    have hvlen : (q.map Prod.fst).length = q.length := List.length_map _ _
    have horder1 : (q.getD (k - 1) (0, 0)).1 < (q.getD k (0, 0)).1 := by
      rw [← getD_map_lt Prod.fst q (k - 1) (by omega) (0, 0) 0,
        ← getD_map_lt Prod.fst q k hk (0, 0) 0,
        getD_eq_getElem' _ _ _ (by omega), getD_eq_getElem' _ _ _ (by omega)]
      exact List.pairwise_iff_getElem.mp hpw (k - 1) k (by omega) (by omega) (by omega)
    have horder2 : (q.getD k (0, 0)).1 < (q.getD (k + 1) (0, 0)).1 := by
      rw [← getD_map_lt Prod.fst q k hk (0, 0) 0,
        ← getD_map_lt Prod.fst q (k + 1) hinp (0, 0) 0,
        getD_eq_getElem' _ _ _ (by omega), getD_eq_getElem' _ _ _ (by omega)]
      exact List.pairwise_iff_getElem.mp hpw k (k + 1) (by omega) (by omega) (by omega)
    obtain ⟨im, him, hima⟩ := mem_getD freqs _ 0 hmemm
    obtain ⟨ik, hik, hika⟩ := mem_getD freqs _ 0 hmemk
    obtain ⟨ip, hip, hipa⟩ := mem_getD freqs _ 0 hmemp
    have harm := arith_getD freqs huni im him
    have hark := arith_getD freqs huni ik hik
    have harp := arith_getD freqs huni ip hip
    rw [← hima] at harm
    rw [← hika] at hark
    rw [← hipa] at harp
    have hidx1 : (im : ℚ) < (ik : ℚ) := by
      by_contra hcon
      push_neg at hcon
      nlinarith [mul_le_mul_of_nonneg_right hcon (le_of_lt hd)]
    have hidx2 : (ik : ℚ) < (ip : ℚ) := by
      by_contra hcon
      push_neg at hcon
      nlinarith [mul_le_mul_of_nonneg_right hcon (le_of_lt hd)]
    have hidx1' : (im : ℚ) + 1 ≤ (ik : ℚ) := by
      have : im < ik := by exact_mod_cast hidx1
      exact_mod_cast Nat.succ_le_of_lt this
    have hidx2' : (ik : ℚ) + 1 ≤ (ip : ℚ) := by
      have : ik < ip := by exact_mod_cast hidx2
      exact_mod_cast Nat.succ_le_of_lt this
    have hgap1 : freqs.getD 1 0 - freqs.getD 0 0 ≤
        (q.getD k (0, 0)).1 - (q.getD (k - 1) (0, 0)).1 := by
      nlinarith [mul_le_mul_of_nonneg_right (by linarith : (1 : ℚ) ≤ (ik : ℚ) - im)
        (le_of_lt hd)]
    have hgap2 : freqs.getD 1 0 - freqs.getD 0 0 ≤
        (q.getD (k + 1) (0, 0)).1 - (q.getD k (0, 0)).1 := by
      nlinarith [mul_le_mul_of_nonneg_right (by linarith : (1 : ℚ) ≤ (ip : ℚ) - ik)
        (le_of_lt hd)]
    by_cases heps : EPS <
        |(q.getD (k - 1) (0, 0)).2 - 2 * (q.getD k (0, 0)).2 + (q.getD (k + 1) (0, 0)).2|
    · rw [if_pos heps]
      have hclamp := clamp_bounds
        (0.5 * ((q.getD (k - 1) (0, 0)).2 - (q.getD (k + 1) (0, 0)).2) /
          ((q.getD (k - 1) (0, 0)).2 - 2 * (q.getD k (0, 0)).2 + (q.getD (k + 1) (0, 0)).2))
        (-0.5) 0.5 (by norm_num)
      generalize hdel : max (-0.5 : ℚ)
        (min (0.5 * ((q.getD (k - 1) (0, 0)).2 - (q.getD (k + 1) (0, 0)).2) /
          ((q.getD (k - 1) (0, 0)).2 - 2 * (q.getD k (0, 0)).2 + (q.getD (k + 1) (0, 0)).2)) 0.5)
        = delta at hclamp ⊢
      obtain ⟨hcl, hcu⟩ := hclamp
      have hp1 : 0 ≤ (delta + 0.5) * (freqs.getD 1 0 - freqs.getD 0 0) :=
        mul_nonneg (by linarith) (le_of_lt hd)
      have hp2 : 0 ≤ (0.5 - delta) * (freqs.getD 1 0 - freqs.getD 0 0) :=
        mul_nonneg (by linarith) (le_of_lt hd)
      have hexp1 : (delta + 0.5) * (freqs.getD 1 0 - freqs.getD 0 0) =
          delta * (freqs.getD 1 0 - freqs.getD 0 0) +
            0.5 * (freqs.getD 1 0 - freqs.getD 0 0) := by ring
      have hexp2 : (0.5 - delta) * (freqs.getD 1 0 - freqs.getD 0 0) =
          0.5 * (freqs.getD 1 0 - freqs.getD 0 0) -
            delta * (freqs.getD 1 0 - freqs.getD 0 0) := by ring
      rw [hexp1] at hp1
      rw [hexp2] at hp2
      constructor
      · linarith [hbm.1, hgap1, hp1, le_of_lt hd]
      · linarith [hbp.2, hgap2, hp2, le_of_lt hd]
    · rw [if_neg heps]
      exact hbk
  · rw [if_neg hin]
    exact hbk

/-- C1: for every spectrum (parallel frequency/magnitude lists) with at
least one bin in the band, the detector selects the first bin of maximum
magnitude among the qualifying bins; if that bin is strictly interior to the
qualifying set and the denominator alpha - 2 beta + gamma exceeds 1e-10 in
absolute value it returns the peak frequency plus the clamped parabolic
offset times the spacing of the full spectrum's first two bins, and
otherwise the raw peak frequency (the content of `fundAt`). -/
theorem claim_C1_fundamental_formula (freqs mags : List ℚ) (minf maxf : ℚ)
    (hlen : freqs.length = mags.length)
    (hq : qualifying freqs mags minf maxf ≠ []) :
    ∃ k : ℕ, isFirstMax ((qualifying freqs mags minf maxf).map Prod.snd) k ∧
      find_fundamental_frequency freqs mags minf maxf =
        some (fundAt freqs (qualifying freqs mags minf maxf) k) := by
  obtain ⟨h1, h2⟩ := find_fund_spec freqs mags minf maxf hlen hq
  exact ⟨_, h1, h2⟩

/-- Witness for C1 at a concrete spectrum with an interior peak. -/
theorem claim_C1_witness :
    ([(1 : ℚ), 2, 3].length = [(1 : ℚ), 5, 1].length) ∧
    qualifying [1, 2, 3] [1, 5, 1] 0 10 ≠ [] ∧
    (∃ k : ℕ, isFirstMax ((qualifying [1, 2, 3] [1, 5, 1] 0 10).map Prod.snd) k ∧
      find_fundamental_frequency [1, 2, 3] [1, 5, 1] 0 10 =
        some (fundAt [1, 2, 3] (qualifying [1, 2, 3] [1, 5, 1] 0 10) k)) :=
  ⟨by decide, by decide,
    claim_C1_fundamental_formula [1, 2, 3] [1, 5, 1] 0 10 (by decide) (by decide)⟩

/-- C2: on a spectrum whose frequencies are strictly increasing with uniform
spacing, and any band with min_freq ≤ max_freq, the detector returns either
exactly 0 or a value inside the band; the clamped parabolic correction can
never push the result outside. -/
theorem claim_C2_band_invariant (freqs mags : List ℚ) (minf maxf : ℚ)
    (hlen : freqs.length = mags.length)
    (hinc : ∀ i < freqs.length - 1, freqs.getD i 0 < freqs.getD (i + 1) 0)
    (huni : ∀ i < freqs.length - 1,
      freqs.getD (i + 1) 0 - freqs.getD i 0 = freqs.getD 1 0 - freqs.getD 0 0)
    (_hband : minf ≤ maxf) :
    ∃ r, find_fundamental_frequency freqs mags minf maxf = some r ∧
      (r = 0 ∨ (minf ≤ r ∧ r ≤ maxf)) := by
  by_cases hq : qualifying freqs mags minf maxf = []
  · exact ⟨0, find_fund_of_empty freqs mags minf maxf hlen hq, Or.inl rfl⟩
  · obtain ⟨⟨hk1, -, -⟩, h2⟩ := find_fund_spec freqs mags minf maxf hlen hq
    refine ⟨_, h2, Or.inr ?_⟩
    exact fundAt_band freqs mags minf maxf hlen hinc huni _ (by simpa using hk1)

/-- Witness for C2 at a concrete uniformly spaced spectrum. -/
theorem claim_C2_witness :
    ([(1 : ℚ), 2, 3].length = [(1 : ℚ), 5, 1].length) ∧
    (∀ i < [(1 : ℚ), 2, 3].length - 1,
      [(1 : ℚ), 2, 3].getD i 0 < [(1 : ℚ), 2, 3].getD (i + 1) 0) ∧
    (∀ i < [(1 : ℚ), 2, 3].length - 1,
      [(1 : ℚ), 2, 3].getD (i + 1) 0 - [(1 : ℚ), 2, 3].getD i 0 =
        [(1 : ℚ), 2, 3].getD 1 0 - [(1 : ℚ), 2, 3].getD 0 0) ∧
    (0 : ℚ) ≤ 10 ∧
    (∃ r, find_fundamental_frequency [1, 2, 3] [1, 5, 1] 0 10 = some r ∧
      (r = 0 ∨ ((0 : ℚ) ≤ r ∧ r ≤ 10))) :=
  ⟨by decide,
    by decide,
    by
      intro i hi
      simp only [List.length_cons, List.length_nil] at hi
      interval_cases i <;> norm_num,
    by decide,
    claim_C2_band_invariant [1, 2, 3] [1, 5, 1] 0 10
      (by decide) (by decide)
      (by
        intro i hi
        simp only [List.length_cons, List.length_nil] at hi
        interval_cases i <;> norm_num)
      (by decide)⟩

/-- C6: when no bin frequency lies in the band the detector returns exactly
0; in the Option model of numpy exceptions the result is `some 0`, so the
call does not raise. -/
theorem claim_C6_no_qualifying_bins (freqs mags : List ℚ) (minf maxf : ℚ)
    (hlen : freqs.length = mags.length)
    (hout : ∀ f ∈ freqs, ¬(minf ≤ f ∧ f ≤ maxf)) :
    find_fundamental_frequency freqs mags minf maxf = some 0 := by
  apply find_fund_of_empty freqs mags minf maxf hlen
  simp only [qualifying]
  rw [List.filter_eq_nil_iff]
  intro ab hab
  have hfst : ab.1 ∈ freqs := (List.of_mem_zip (a := ab.1) (b := ab.2) (by simpa using hab)).1
  simp only [bandMask, decide_eq_true_eq]
  exact hout ab.1 hfst

/-- Witness for C6: the band lies above every bin frequency. -/
theorem claim_C6_witness :
    ([(100 : ℚ), 200].length = [(1 : ℚ), 2].length) ∧
    (∀ f ∈ [(100 : ℚ), 200], ¬((300 : ℚ) ≤ f ∧ f ≤ 400)) ∧
    find_fundamental_frequency [100, 200] [1, 2] 300 400 = some 0 :=
  ⟨by decide, by decide,
    claim_C6_no_qualifying_bins [100, 200] [1, 2] 300 400 (by decide) (by decide)⟩

/-- C8: whenever the denominator passes the 1e-10 guard, the offset the
detector actually applies — the raw parabolic offset fed through `np_clip` —
lies in [-0.5, 0.5], however small the non-zero denominator is. -/
theorem claim_C8_offset_bounded (alpha beta gamma : ℚ)
    (_h : EPS < |alpha - 2 * beta + gamma|) :
    -0.5 ≤ np_clip (0.5 * (alpha - gamma) / (alpha - 2 * beta + gamma)) (-0.5) 0.5 ∧
      np_clip (0.5 * (alpha - gamma) / (alpha - 2 * beta + gamma)) (-0.5) 0.5 ≤ 0.5 := by
  rw [np_clip_eq _ _ _ (by norm_num : (-0.5 : ℚ) ≤ 0.5)]
  exact clamp_bounds _ _ _ (by norm_num)

/-- Witness for C8 with a tiny but passing denominator. -/
theorem claim_C8_witness :
    EPS < |(1 : ℚ) / 1000000 - 2 * 0 + 0| ∧
    (-0.5 ≤ np_clip (0.5 * ((1 : ℚ) / 1000000 - 0) / (1 / 1000000 - 2 * 0 + 0)) (-0.5) 0.5 ∧
      np_clip (0.5 * ((1 : ℚ) / 1000000 - 0) / (1 / 1000000 - 2 * 0 + 0)) (-0.5) 0.5 ≤ 0.5) := by
  have habs : |(1 : ℚ) / 1000000 - 2 * 0 + 0| = 1 / 1000000 := by
    rw [show (1 : ℚ) / 1000000 - 2 * 0 + 0 = 1 / 1000000 by ring]
    exact abs_of_pos (by norm_num)
  refine ⟨?_, claim_C8_offset_bounded (1 / 1000000) 0 0 ?_⟩ <;>
    · rw [habs]
      norm_num [EPS]

/-! The harmonic locator. -/

theorem nearest_of_argmin (freqs : List ℚ) (target : ℚ) (hne : freqs ≠ []) :
    isNearestBin freqs target (np_argmin (freqs.map (fun f => |f - target|))) := by
  have hmapne : freqs.map (fun f => |f - target|) ≠ [] := by simpa using hne
  obtain ⟨h1, h2, h3⟩ := np_argmin_spec _ hmapne
  rw [List.length_map] at h1
  refine ⟨h1, ?_, ?_⟩
  · intro k hk
    have hle := h2 k (by simpa using hk)
    rwa [getD_map_lt _ freqs _ h1 0 0, getD_map_lt _ freqs _ hk 0 0] at hle
  · intro k hk
    have hlt := h3 k hk
    have hklt : k < freqs.length := lt_trans hk h1
    rwa [getD_map_lt _ freqs _ h1 0 0, getD_map_lt _ freqs _ hklt 0 0] at hlt

theorem harmonicEntry_eq (freqs mags : List ℚ) (fund : ℚ) (i : ℕ)
    (hne : freqs ≠ []) (hlen : freqs.length = mags.length) :
    harmonicEntry freqs mags fund i =
      some (i, freqs.getD (np_argmin (freqs.map (fun f => |f - fund * i|))) 0,
        mags.getD (np_argmin (freqs.map (fun f => |f - fund * i|))) 0) := by
  have hidx : np_argmin (freqs.map (fun f => |f - fund * i|)) < freqs.length :=
    (nearest_of_argmin freqs (fund * i) hne).1
  have hidx' : np_argmin (freqs.map (fun f => |f - fund * i|)) < mags.length :=
    hlen ▸ hidx
  simp only [harmonicEntry]
  rw [if_neg (by simpa using hne)]
  rw [List.get?_eq_get hidx, List.get?_eq_get hidx']
  rw [getD_eq_get freqs _ 0 hidx, getD_eq_get mags _ 0 hidx']

theorem optionMap_all_some {α β : Type} (g : α → Option β) (h : α → β) :
    ∀ l : List α, (∀ a ∈ l, g a = some (h a)) → optionMap g l = some (l.map h)
  | [], _ => rfl
  | a :: l, H => by
    have ha := H a (List.mem_cons_self a l)
    have hl := optionMap_all_some g h l (fun b hb => H b (List.mem_cons_of_mem a hb))
    simp only [optionMap, ha, hl, List.map_cons]

theorem optionMap_mem_inv {α β : Type} (g : α → Option β) :
    ∀ (l : List α) (ys : List β), optionMap g l = some ys →
      ∀ y ∈ ys, ∃ x ∈ l, g x = some y
  | [], ys, h => by
    simp only [optionMap, Option.some.injEq] at h
    subst h
    intro y hy
    simp at hy
  | a :: l, ys, h => by
    simp only [optionMap] at h
    rcases hga : g a with _ | b
    · rw [hga] at h
      simp at h
    · rw [hga] at h
      rcases hml : optionMap g l with _ | bs
      · rw [hml] at h
        simp at h
      · rw [hml] at h
        simp only [Option.some.injEq] at h
        subst h
        intro y hy
        rcases List.mem_cons.mp hy with hy1 | hy2
        · exact ⟨a, List.mem_cons_self a l, by rw [hga, hy1]⟩
        · obtain ⟨x, hx, hgx⟩ := optionMap_mem_inv g l bs hml y hy2
          exact ⟨x, List.mem_cons_of_mem a hx, hgx⟩

theorem harmonicEntry_inv (freqs mags : List ℚ) (fund : ℚ) (i : ℕ)
    (e : ℕ × ℚ × ℚ) (h : harmonicEntry freqs mags fund i = some e) :
    ∃ j, freqs.get? j = some e.2.1 ∧ mags.get? j = some e.2.2 := by
  simp only [harmonicEntry] at h
  by_cases hne : freqs.isEmpty
  · rw [if_pos hne] at h
    simp at h
  · rw [if_neg hne] at h
    rcases hgf : freqs.get? (np_argmin (freqs.map (fun f => |f - fund * i|))) with _ | f
    · rw [hgf] at h
      simp at h
    · rcases hgm : mags.get? (np_argmin (freqs.map (fun f => |f - fund * i|))) with _ | m
      · rw [hgf, hgm] at h
        simp at h
      · rw [hgf, hgm] at h
        simp only [Option.some.injEq] at h
        subst h
        exact ⟨np_argmin (freqs.map (fun f => |f - fund * i|)), hgf, hgm⟩

/-- C10: every harmonic entry draws its frequency and its magnitude from one
and the same bin of the input spectrum, so no entry mixes bins and no value
from outside the input arrays appears. -/
theorem claim_C10_same_bin (freqs mags : List ℚ) (fund : ℚ) (count : ℕ)
    (l : List (ℕ × ℚ × ℚ))
    (hsome : find_harmonics freqs mags fund count = some l) :
    ∀ e ∈ l, ∃ j, freqs.get? j = some e.2.1 ∧ mags.get? j = some e.2.2 := by
  intro e he
  have hsome' : optionMap (harmonicEntry freqs mags fund)
      ((List.range count).map (fun i => i + 1)) = some l := hsome
  obtain ⟨x, -, hgx⟩ := optionMap_mem_inv _ _ l hsome' e he
  exact harmonicEntry_inv freqs mags fund x e hgx

/-- Witness for C10 on a concrete spectrum. -/
theorem claim_C10_witness :
    find_harmonics [(10 : ℚ), 20] [(3 : ℚ), 4] 10 1 = some [(1, 10, 3)] ∧
    (∀ e ∈ [((1 : ℕ), (10 : ℚ), (3 : ℚ))],
      ∃ j, [(10 : ℚ), 20].get? j = some e.2.1 ∧ [(3 : ℚ), 4].get? j = some e.2.2) := by
  have hentry : harmonicEntry [(10 : ℚ), 20] [(3 : ℚ), 4] 10 1 = some (1, 10, 3) := by
    simp only [harmonicEntry]
    rw [if_neg (by decide : ¬([(10 : ℚ), 20].isEmpty = true))]
    rw [show ([(10 : ℚ), 20].map (fun f => |f - (10 : ℚ) * ((1 : ℕ) : ℚ)|)) = [0, 10] from by
      norm_num]
    rw [show np_argmin [0, 10] = 0 from by decide]
    rfl
  have hfh : find_harmonics [(10 : ℚ), 20] [(3 : ℚ), 4] 10 1 = some [(1, 10, 3)] := by
    have hom : optionMap (harmonicEntry [(10 : ℚ), 20] [(3 : ℚ), 4] 10)
        ((List.range 1).map (fun i => i + 1)) = some [(1, 10, 3)] := by
      simp only [List.range_succ, List.range_zero, List.map_cons, List.map_nil, optionMap, hentry]
    exact hom
  exact ⟨hfh, claim_C10_same_bin [10, 20] [3, 4] 10 1 [(1, 10, 3)] hfh⟩

/-- C3: for every spectrum with at least one bin (parallel arrays), every
fundamental value, and every count ≥ 1 the locator returns exactly `count`
entries, the i-th (i = 1..count) being (i, frequencies[j], magnitudes[j])
where j is the first index minimizing |frequencies[j] - fundamental * i|;
when fundamental = 0 on a spectrum whose first bin frequency is 0, every
entry resolves to bin 0. -/
theorem claim_C3_harmonic_entries (freqs mags : List ℚ) (fund : ℚ) (count : ℕ)
    (hne : freqs ≠ []) (hlen : freqs.length = mags.length) (_hcount : 1 ≤ count) :
    ∃ l, find_harmonics freqs mags fund count = some l ∧
      l.length = count ∧
      (∀ i < count, ∃ j, isNearestBin freqs (fund * ((i + 1 : ℕ) : ℚ)) j ∧
        l.getD i (0, 0, 0) = (i + 1, freqs.getD j 0, mags.getD j 0)) ∧
      (fund = 0 → freqs.getD 0 0 = 0 →
        ∀ i < count, l.getD i (0, 0, 0) = (i + 1, freqs.getD 0 0, mags.getD 0 0)) := by
  have hmap := optionMap_all_some (harmonicEntry freqs mags fund)
    (fun m => (m, freqs.getD (np_argmin (freqs.map (fun f => |f - fund * m|))) 0,
      mags.getD (np_argmin (freqs.map (fun f => |f - fund * m|))) 0))
    ((List.range count).map (fun i => i + 1))
    (fun a _ => harmonicEntry_eq freqs mags fund a hne hlen)
  refine ⟨_, hmap, by simp, ?_, ?_⟩
  · intro i hi
    refine ⟨np_argmin (freqs.map (fun f => |f - fund * ((i + 1 : ℕ) : ℚ)|)),
      nearest_of_argmin freqs (fund * ((i + 1 : ℕ) : ℚ)) hne, ?_⟩
    rw [List.map_map]
    exact getD_range_map _ count i hi (0, 0, 0)
  · intro hf h0 i hi
    rw [List.map_map, getD_range_map _ count i hi (0, 0, 0)]
    simp only [Function.comp]
    have hzero : np_argmin (freqs.map (fun f => |f - fund * ((i + 1 : ℕ) : ℚ)|)) = 0 := by
      by_contra hJ
      obtain ⟨-, -, hfirst⟩ := nearest_of_argmin freqs (fund * ((i + 1 : ℕ) : ℚ)) hne
      have hlt := hfirst 0 (Nat.pos_of_ne_zero hJ)
      rw [hf, zero_mul, sub_zero, sub_zero, h0, abs_zero] at hlt
      exact absurd hlt (not_lt.mpr (abs_nonneg _))
    rw [hzero]

/-- Witness for C3 on a concrete two-bin spectrum with two harmonics. -/
theorem claim_C3_witness :
    ([(10 : ℚ), 20] ≠ ([] : List ℚ)) ∧
    ([(10 : ℚ), 20].length = [(3 : ℚ), 4].length) ∧ 1 ≤ 2 ∧
    (∃ l, find_harmonics [(10 : ℚ), 20] [(3 : ℚ), 4] 10 2 = some l ∧
      l.length = 2 ∧
      (∀ i < 2, ∃ j, isNearestBin [(10 : ℚ), 20] (10 * ((i + 1 : ℕ) : ℚ)) j ∧
        l.getD i (0, 0, 0) = (i + 1, [(10 : ℚ), 20].getD j 0, [(3 : ℚ), 4].getD j 0)) ∧
      ((10 : ℚ) = 0 → [(10 : ℚ), 20].getD 0 0 = 0 →
        ∀ i < 2, l.getD i (0, 0, 0) =
          (i + 1, [(10 : ℚ), 20].getD 0 0, [(3 : ℚ), 4].getD 0 0))) :=
  ⟨by decide, by decide, by decide,
    claim_C3_harmonic_entries [10, 20] [3, 4] 10 2 (by decide) (by decide) (by decide)⟩

/-! The note mapper. -/

theorem note_idx_nonneg (h : ℤ) : 0 ≤ (h + 9) % 12 :=
  Int.emod_nonneg _ (by norm_num)

theorem frequency_to_note_pos (frequency : ℝ) (hf : 0 < frequency) :
    frequency_to_note frequency =
      notes.getD ((round (12 * Real.logb 2 (frequency / 440)) + 9) % 12).toNat "" ++
        toString (4 + Int.fdiv (round (12 * Real.logb 2 (frequency / 440))) 12) := by
  simp only [frequency_to_note]
  rw [if_neg (not_le.mpr hf), if_neg (not_lt.mpr (note_idx_nonneg _))]

/-- C9: for every positive frequency the pitch-class index (h + 9) % 12 is
already non-negative under the non-negative modulus, so the corrective
branch adding 12 and decrementing the octave is unreachable:
`frequency_to_note` is extensionally equal to the version with that branch
removed. -/
theorem claim_C9_dead_branch (frequency : ℝ) :
    frequency_to_note frequency = frequency_to_note_spec frequency := by
  by_cases hf : frequency ≤ 0
  · simp only [frequency_to_note, frequency_to_note_spec]
    rw [if_pos hf, if_pos hf]
  · push_neg at hf
    rw [frequency_to_note_pos frequency hf]
    simp only [frequency_to_note_spec]
    rw [if_neg (not_le.mpr hf)]

theorem frequency_to_note_eval (frequency : ℝ) (hf : 0 < frequency) (h : ℤ)
    (hh : round (12 * Real.logb 2 (frequency / 440)) = h) :
    frequency_to_note frequency =
      notes.getD ((h + 9) % 12).toNat "" ++ toString (4 + Int.fdiv h 12) := by
  rw [frequency_to_note_pos frequency hf, hh]

theorem round_h_440 : round (12 * Real.logb 2 ((440 : ℝ) / 440)) = 0 := by
  norm_num [Real.logb_one, round_zero]

theorem round_h_880 : round (12 * Real.logb 2 ((880 : ℝ) / 440)) = 12 := by
  rw [show (880 : ℝ) / 440 = 2 by norm_num,
    Real.logb_self_eq_one (by norm_num),
    show (12 : ℝ) * 1 = ((12 : ℕ) : ℝ) by push_cast; norm_num, round_natCast]
  norm_num

theorem round_h_220 : round (12 * Real.logb 2 ((220 : ℝ) / 440)) = -12 := by
  rw [show (220 : ℝ) / 440 = 2⁻¹ by norm_num, Real.logb_inv,
    Real.logb_self_eq_one (by norm_num),
    show (12 : ℝ) * -1 = ((-12 : ℤ) : ℝ) by push_cast; norm_num, round_intCast]

theorem round_h_466 : round (12 * Real.logb 2 ((466.16 : ℝ) / 440)) = 1 := by
  have h24 : (2 : ℝ) ≤ ((466.16 : ℝ) / 440) ^ (24 : ℕ) := by norm_num
  have h8 : ((466.16 : ℝ) / 440) ^ (8 : ℕ) < 2 := by norm_num
  have hlo : (1 : ℝ) / 24 ≤ Real.logb 2 ((466.16 : ℝ) / 440) := by
    have h1 : Real.logb 2 2 ≤ Real.logb 2 (((466.16 : ℝ) / 440) ^ (24 : ℕ)) :=
      Real.logb_le_logb_of_le (by norm_num) (by norm_num) h24
    rw [Real.logb_self_eq_one (by norm_num), Real.logb_pow] at h1
    push_cast at h1
    linarith
  have hhi : Real.logb 2 ((466.16 : ℝ) / 440) < 1 / 8 := by
    have h1 : Real.logb 2 (((466.16 : ℝ) / 440) ^ (8 : ℕ)) < Real.logb 2 2 :=
      Real.logb_lt_logb (by norm_num) (by positivity) h8
    rw [Real.logb_self_eq_one (by norm_num), Real.logb_pow] at h1
    push_cast at h1
    linarith
  rw [round_eq, Int.floor_eq_iff]
  constructor <;> push_cast <;> linarith

theorem note_at_440 : frequency_to_note 440 = "A4" := by
  rw [frequency_to_note_eval 440 (by norm_num) 0 round_h_440]
  rfl

theorem note_at_880 : frequency_to_note 880 = "A5" := by
  rw [frequency_to_note_eval 880 (by norm_num) 12 round_h_880]
  rfl

theorem note_at_220 : frequency_to_note 220 = "A3" := by
  rw [frequency_to_note_eval 220 (by norm_num) (-12) round_h_220]
  rfl

theorem note_at_466 : frequency_to_note 466.16 = "A#4" := by
  rw [frequency_to_note_eval 466.16 (by norm_num) 1 round_h_466]
  rfl

theorem note_at_0 : frequency_to_note 0 = "N/A" := by
  simp only [frequency_to_note]
  rw [if_pos le_rfl]

/-- C4: the mapper returns "N/A" for every frequency ≤ 0; for every positive
frequency, with h the rounded value of 12 * log2(frequency / 440), it
returns the pitch class at the non-negative index (h + 9) mod 12 in the
table C, C#, ..., B concatenated with the octave 4 + (h floor-divided by
12); in particular 440 ↦ "A4", 880 ↦ "A5", 220 ↦ "A3", 466.16 ↦ "A#4" and
0 ↦ "N/A". -/
theorem claim_C4_note_mapper :
    (∀ f : ℝ, f ≤ 0 → frequency_to_note f = "N/A") ∧
    (∀ f : ℝ, 0 < f → frequency_to_note f =
      notes.getD ((round (12 * Real.logb 2 (f / 440)) + 9) % 12).toNat "" ++
        toString (4 + Int.fdiv (round (12 * Real.logb 2 (f / 440))) 12)) ∧
    frequency_to_note 440 = "A4" ∧ frequency_to_note 880 = "A5" ∧
    frequency_to_note 220 = "A3" ∧ frequency_to_note 466.16 = "A#4" ∧
    frequency_to_note 0 = "N/A" :=
  ⟨fun f hf => by
      simp only [frequency_to_note]
      rw [if_pos hf],
   fun f hf => frequency_to_note_pos f hf,
   note_at_440, note_at_880, note_at_220, note_at_466, note_at_0⟩

/-- Witness for C4: the two universally quantified conjuncts applied at
concrete frequencies. -/
theorem claim_C4_witness :
    ((-5 : ℝ) ≤ 0 ∧ frequency_to_note (-5) = "N/A") ∧
    ((0 : ℝ) < 440 ∧ frequency_to_note 440 =
      notes.getD ((round (12 * Real.logb 2 ((440 : ℝ) / 440)) + 9) % 12).toNat "" ++
        toString (4 + Int.fdiv (round (12 * Real.logb 2 ((440 : ℝ) / 440))) 12)) :=
  ⟨⟨by norm_num, claim_C4_note_mapper.1 (-5) (by norm_num)⟩,
   ⟨by norm_num, claim_C4_note_mapper.2.1 440 (by norm_num)⟩⟩

/-! The spectral estimator. -/

theorem np_hanning_length (M : ℕ) : (np_hanning M).length = M := by
  simp only [np_hanning]
  split_ifs with h
  · simp [h]
  · rw [List.length_map, List.length_range]

theorem np_rfft_length (x : List ℝ) : (np_rfft x).length = x.length / 2 + 1 := by
  simp only [np_rfft]
  rw [List.length_map, List.length_range]

theorem np_rfftfreq_length (n : ℕ) (sr : ℚ) :
    (np_rfftfreq n sr).length = n / 2 + 1 := by
  simp only [np_rfftfreq]
  rw [List.length_map, List.length_range]

theorem compute_fft_eq (sr : ℚ) (audio : List ℝ) (hne : audio ≠ []) :
    compute_fft sr audio = some (np_rfftfreq audio.length sr,
      (np_rfft (List.zipWith (fun a w => a * w) audio (np_hanning audio.length))).map
        Complex.abs) := by
  simp only [compute_fft]
  rw [if_neg (by simpa [List.length_eq_zero] using hne)]

/-- C5: for every block of N ≥ 1 samples, compute_fft returns two arrays of
equal length floor(N/2)+1; the frequency array is i * sample_rate / N —
independent of the sample values, strictly increasing with constant spacing
sample_rate / N when the sample rate is positive — and the magnitude array
is element-wise non-negative. -/
theorem claim_C5_spectrum_shape (sr : ℚ) (audio : List ℝ)
    (hsr : 0 < sr) (hne : audio ≠ []) :
    ∃ freqs mags, compute_fft sr audio = some (freqs, mags) ∧
      freqs.length = audio.length / 2 + 1 ∧
      mags.length = audio.length / 2 + 1 ∧
      (∀ i < audio.length / 2 + 1,
        freqs.getD i 0 = (i : ℚ) * sr / (audio.length : ℚ)) ∧
      (∀ i, i + 1 < freqs.length →
        freqs.getD (i + 1) 0 - freqs.getD i 0 = sr / (audio.length : ℚ) ∧
          freqs.getD i 0 < freqs.getD (i + 1) 0) ∧
      (∀ x ∈ mags, 0 ≤ x) ∧
      (∀ audio' : List ℝ, audio'.length = audio.length →
        ∃ mags', compute_fft sr audio' = some (freqs, mags')) := by
  have hN : (0 : ℚ) < (audio.length : ℚ) := by
    have : 0 < audio.length := List.length_pos.mpr hne
    exact_mod_cast this
  have hgd : ∀ i < audio.length / 2 + 1,
      (np_rfftfreq audio.length sr).getD i 0 = (i : ℚ) * sr / (audio.length : ℚ) := by
    intro i hi
    simp only [np_rfftfreq]
    exact getD_range_map _ _ i hi 0
  refine ⟨_, _, compute_fft_eq sr audio hne, np_rfftfreq_length _ _, ?_, hgd, ?_, ?_, ?_⟩
  · simp [np_rfft_length, List.length_zipWith, np_hanning_length]
  · intro i hip
    rw [np_rfftfreq_length] at hip
    have h1 := hgd i (by omega)
    have h2 := hgd (i + 1) hip
    have hspace : (np_rfftfreq audio.length sr).getD (i + 1) 0 -
        (np_rfftfreq audio.length sr).getD i 0 = sr / (audio.length : ℚ) := by
      rw [h1, h2]
      push_cast
      rw [div_sub_div_same]
      congr 1
      ring
    refine ⟨hspace, ?_⟩
    have hpos : 0 < sr / (audio.length : ℚ) := div_pos hsr hN
    linarith [hspace]
  · intro x hx
    obtain ⟨z, -, rfl⟩ := List.mem_map.mp hx
    exact AbsoluteValue.nonneg _ z
  · intro audio' hlen'
    have hne' : audio' ≠ [] := by
      intro hnil
      rw [hnil] at hlen'
      exact hne (List.length_eq_zero.mp hlen'.symm)
    refine ⟨(np_rfft (List.zipWith (fun a w => a * w) audio'
      (np_hanning audio'.length))).map Complex.abs, ?_⟩
    rw [compute_fft_eq sr audio' hne', hlen']

/-- Witness for C5 at a concrete two-sample block. -/
theorem claim_C5_witness :
    (0 : ℚ) < 44100 ∧ ([(1 : ℝ), 0] ≠ []) ∧
    (∃ freqs mags, compute_fft 44100 [(1 : ℝ), 0] = some (freqs, mags) ∧
      freqs.length = [(1 : ℝ), 0].length / 2 + 1 ∧
      mags.length = [(1 : ℝ), 0].length / 2 + 1 ∧
      (∀ i < [(1 : ℝ), 0].length / 2 + 1,
        freqs.getD i 0 = (i : ℚ) * 44100 / (([(1 : ℝ), 0].length : ℕ) : ℚ)) ∧
      (∀ i, i + 1 < freqs.length →
        freqs.getD (i + 1) 0 - freqs.getD i 0 = 44100 / (([(1 : ℝ), 0].length : ℕ) : ℚ) ∧
          freqs.getD i 0 < freqs.getD (i + 1) 0) ∧
      (∀ x ∈ mags, 0 ≤ x) ∧
      (∀ audio' : List ℝ, audio'.length = [(1 : ℝ), 0].length →
        ∃ mags', compute_fft 44100 audio' = some (freqs, mags'))) :=
  ⟨by decide, by simp,
    claim_C5_spectrum_shape 44100 [(1 : ℝ), 0] (by decide) (by simp)⟩

/-- C7: compute_fft does not fail on any non-empty sample block, however
small (N = 1 or 2, where the Hann window degenerates to [1] or [0, 0]): it
still returns a — possibly low-resolution — spectrum of floor(N/2)+1 bins. -/
theorem claim_C7_small_blocks (sr : ℚ) (audio : List ℝ) (hne : audio ≠ []) :
    ∃ freqs mags, compute_fft sr audio = some (freqs, mags) ∧
      freqs.length = audio.length / 2 + 1 ∧
      mags.length = audio.length / 2 + 1 := by
  refine ⟨_, _, compute_fft_eq sr audio hne, np_rfftfreq_length _ _, ?_⟩
  simp [np_rfft_length, List.length_zipWith, np_hanning_length]

/-- Witness for C7 at a one-sample block, below the N = 3 threshold. -/
theorem claim_C7_witness :
    ([(1 : ℝ)] ≠ []) ∧
    (∃ freqs mags, compute_fft 44100 [(1 : ℝ)] = some (freqs, mags) ∧
      freqs.length = [(1 : ℝ)].length / 2 + 1 ∧
      mags.length = [(1 : ℝ)].length / 2 + 1) :=
  ⟨by simp, claim_C7_small_blocks 44100 [(1 : ℝ)] (by simp)⟩

end FFTEngine
